import Mathlib

/-!
Verification development for TheRealANDREWQA/LineCounter ( src/main.cpp ).

File contents are modelled as `List Char`.  Machine integers (`size_t`,
`unsigned int`) are modelled as `Nat`; every quantity that occurs stays far
below any overflow boundary, except for the two sentinels that are written
out explicitly below.  A C function that can fire an `ECS_ASSERT` — which
kills the whole process — is modelled with `Option` (or a dedicated
constructor), `none` standing for the assertion firing.

The ECSEngine library functions used by main.cpp (`function::SkipWhitespace`,
`function::IsCodeIdentifierCharacter`, `function::FindToken`,
`function::RemoveSingleLineComment`, `function::RemoveMultiLineComments`,
`ThreadPartitionStream`, `Semaphore`) are not part of this repository's
sources; their models are marked `Modelled from the spec:` and follow the
behaviour the specification ascribes to them.
-/

/-- Models `MAX_NEW_LINES_PER_FILE` = `ECS_KB * 128` (main.cpp line 9). -/
def ECS_MAX_NEW_LINES_PER_FILE : Nat := 1024 * 128

/-- The stack capacity of `new_line_positions` used while reading the
root-path list (main.cpp line 261). -/
def SEARCH_PATH_NEW_LINE_CAPACITY : Nat := 1024

/-- `(size_t)-1`, the "parsing error" sentinel the counting worker compares
`GetSloc`'s result against (main.cpp lines 37 and 149). -/
def SIZE_T_MINUS_ONE : Nat := 2 ^ 64 - 1

/-- `signal_initialization_finished` = `(unsigned int)-2` (main.cpp line 95). -/
def signalInitializationFinished : Nat := 2 ^ 32 - 2

/-- Modelled from the spec: the whitespace class skipped by
`function::SkipWhitespace` — blanks and tabs.  The line terminator `'\n'`
is never part of this class: every caller in main.cpp treats the
terminator separately (it is the very character `SkipWhitespace` is
expected to stop at when a line is blank). -/
def isWhitespaceChar (c : Char) : Bool := c == ' ' || c == '\t'

/-- Modelled from the spec: `function::IsCodeIdentifierCharacter` — a
letter, a digit, or an underscore. -/
def isCodeIdentifierCharacter (c : Char) : Bool :=
  (decide ('a' ≤ c) && decide (c ≤ 'z')) ||
  (decide ('A' ≤ c) && decide (c ≤ 'Z')) ||
  (decide ('0' ≤ c) && decide (c ≤ '9')) ||
  c == '_'

/-- Modelled from the spec: the number of consecutive whitespace characters
at the head of a list; `function::SkipWhitespace` advances over exactly
these characters.  (In the C code the scan is stopped by the first
non-whitespace byte; the callers in main.cpp guarantee a terminating
non-whitespace byte — `'\n'`, or the `'\0'` written at the end of the
buffer — so stopping at the end of the list is the same behaviour.) -/
def skipWhitespaceCount : List Char → Nat
  | [] => 0
  | c :: rest => if isWhitespaceChar c then skipWhitespaceCount rest + 1 else 0

/-- `function::SkipWhitespace` on a pointer into `content` at offset `i`,
returned as the offset it stops at. -/
def skipWhitespaceIdx (content : List Char) (i : Nat) : Nat :=
  i + skipWhitespaceCount (content.drop i)

/-- Modelled from the spec: `function::FindToken(content, tok, stream)` —
the ascending list of offsets of every occurrence of `tok`.
`findTokenAux tok l i` lists the occurrences of `tok` in `l`, reporting
positions relative to the start offset `i`. -/
def findTokenAux (tok : Char) : List Char → Nat → List Nat
  | [], _ => []
  | c :: rest, i =>
    if c = tok then i :: findTokenAux tok rest (i + 1) else findTokenAux tok rest (i + 1)

/-- All offsets of `tok` inside `content`, in ascending order. -/
def findToken (content : List Char) (tok : Char) : List Nat :=
  findTokenAux tok content 0

/-- Models `AreSlocCharacters` (main.cpp lines 18-35), with the two C
pointers `first` and `end` rendered as offsets into `content`: skip
whitespace from `first`; if that moved past `end`, there are no sloc
characters; otherwise scan the half-open range up to `end` for a code
identifier character. -/
def AreSlocCharacters (content : List Char) (first e : Nat) : Bool :=
  if e < skipWhitespaceIdx content first then false
  else
    ((content.drop (skipWhitespaceIdx content first)).take
      (e - skipWhitespaceIdx content first)).any isCodeIdentifierCharacter

/-- Models the `verify_line` lambda of `GetSloc` (main.cpp lines 50-64).
The state is the pair `(sloc_count, current_character)`; `lastOff` is
`last_line_character_offset`.  If skipping whitespace from
`current_character` lands exactly on the line end the line is blank and the
running count is decremented; otherwise the count is decremented exactly
when `AreSlocCharacters` finds no identifier character before the line
end.  Either way `current_character` becomes `lastOff + 1`. -/
def verifyLine (content : List Char) (st : Nat × Nat) (lastOff : Nat) : Nat × Nat :=
  if skipWhitespaceIdx content st.2 = lastOff then (st.1 - 1, lastOff + 1)
  else
    (if AreSlocCharacters content (skipWhitespaceIdx content st.2) lastOff then st.1
     else st.1 - 1, lastOff + 1)

/-- The loop body of `GetSloc` (main.cpp lines 43-75) after the newline
positions have been found: start from `new_line_positions.size + 1`, verify
each newline-terminated line, then verify the final line ending at
`content.size`. -/
def GetSlocRun (content : List Char) : Nat :=
  (verifyLine content
    ((findToken content '\n').foldl (verifyLine content)
      ((findToken content '\n').length + 1, 0))
    content.length).1

/-- Models `GetSloc` (main.cpp lines 38-76).  `none` models the
`ECS_ASSERT(new_line_positions.size < MAX_NEW_LINES_PER_FILE, ...)` at line
41 firing (a process abort; the capacity of the positions stream is also
`MAX_NEW_LINES_PER_FILE`, so a file with at least that many terminators
dies either in `FindToken` or at the assertion). -/
def GetSloc (content : List Char) : Option Nat :=
  if ECS_MAX_NEW_LINES_PER_FILE ≤ (findToken content '\n').length then none
  else some (GetSlocRun content)

/-- The logical lines of a text: splitting at every `'\n'` yields
`terminator_count + 1` segments, including a possibly-empty trailing one.
(Specification-side definition used to state refinement claims.) -/
def splitLines : List Char → List (List Char)
  | [] => [[]]
  | c :: rest =>
    if c = '\n' then [] :: splitLines rest
    else (c :: (splitLines rest).headD []) :: (splitLines rest).tail

/-- Specification-side line classification: after skipping leading
whitespace the line still contains a letter, digit or underscore before its
end. -/
def lineHasSloc (l : List Char) : Bool :=
  (l.dropWhile isWhitespaceChar).any isCodeIdentifierCharacter

/-- Specification-side SLOC count: the number of logical lines that carry
an identifier character. -/
def slocSpec (content : List Char) : Nat :=
  (splitLines content).countP lineHasSloc

/-- Modelled from the spec: `function::RemoveSingleLineComment` — remove
the text from every `//` token up to (but not including) the next line
terminator.  `inside` records whether the scan is currently inside a
single-line comment. -/
def removeSingleAux : Bool → List Char → List Char
  | _, [] => []
  | inside, c :: rest =>
    if inside then
      if c = '\n' then c :: removeSingleAux false rest else removeSingleAux true rest
    else
      if c = '/' ∧ rest.head? = some '/' then removeSingleAux true rest
      else c :: removeSingleAux false rest

/-- `function::RemoveSingleLineComment` applied to a whole buffer. -/
def RemoveSingleLineComment (content : List Char) : List Char :=
  removeSingleAux false content

/-- Scanner state for the multi-line comment stripper: outside a comment;
on the `*` of an open token that was just matched (so a close token cannot
overlap the open token); inside a comment; on the `/` of a close token. -/
inductive MultiScanState where
  | outside
  | openStar
  | insideComment
  | closeSlash
deriving DecidableEq, Repr

/-- Modelled from the spec: `function::RemoveMultiLineComments` — remove
every balanced region between a `/*` token and the nearest following `*/`
token; an open token with no matching close token before end-of-file is an
unconditional abort in the current design (`none`). -/
def removeMultiAux : MultiScanState → List Char → Option (List Char)
  | .outside, [] => some []
  | _, [] => none
  | .outside, c :: rest =>
    if c = '/' ∧ rest.head? = some '*' then removeMultiAux .openStar rest
    else (removeMultiAux .outside rest).map (fun l => c :: l)
  | .openStar, _ :: rest => removeMultiAux .insideComment rest
  | .insideComment, c :: rest =>
    if c = '*' ∧ rest.head? = some '/' then removeMultiAux .closeSlash rest
    else removeMultiAux .insideComment rest
  | .closeSlash, _ :: rest => removeMultiAux .outside rest

/-- `function::RemoveMultiLineComments` applied to a whole buffer. -/
def RemoveMultiLineComments (content : List Char) : Option (List Char) :=
  removeMultiAux .outside content

/-- The possible outcomes of handing one successfully read file buffer to
the comment stripping + `GetSloc` sequence of `LineCountThreadTask`
(main.cpp lines 144-159). -/
inductive FileParseOutcome where
  /-- An `ECS_ASSERT` fired inside the library or inside `GetSloc`: the
  whole process is killed. -/
  | abort
  /-- The `sloc == -1` branch (main.cpp lines 149-152): a per-file error is
  recorded into the worker's error buffer and the file is skipped. -/
  | fileError
  /-- The file was parsed; its SLOC value is added to the worker total. -/
  | ok (sloc : Nat)
deriving DecidableEq, Repr

/-- Models main.cpp lines 144-159 for a file whose open and read succeeded:
strip single-line comments, strip multi-line comments (an unterminated
comment asserts), run `GetSloc` (too many lines asserts), then compare the
result against `(size_t)-1`. -/
def processFileContent (raw : List Char) : FileParseOutcome :=
  (RemoveMultiLineComments (RemoveSingleLineComment raw)).elim .abort (fun stripped =>
    (GetSloc stripped).elim .abort (fun sloc =>
      if sloc = SIZE_T_MINUS_ONE then .fileError else .ok sloc))

/-- `ECSEngine::ThreadPartition`: an `{offset, size}` pair over the item
index space. -/
structure ThreadPartition where
  offset : Nat
  size : Nat
deriving DecidableEq, Repr

/-- Modelled from the spec: the loop of `ThreadPartitionStream` — worker
`i` (counting from the worker index `i0` with running offset `off`)
receives `base + 1` items while `i < remainder` and `base` items
afterwards; offsets are the running prefix sum. -/
def threadPartitionAux (base rem : Nat) : Nat → Nat → Nat → List ThreadPartition
  | 0, _, _ => []
  | t + 1, i, off =>
    let size := if i < rem then base + 1 else base
    ⟨off, size⟩ :: threadPartitionAux base rem t (i + 1) (off + size)

/-- Modelled from the spec: `ThreadPartitionStream` splits `N` items across
`T` workers with `base = N / T`, `remainder = N % T`; the first `remainder`
workers receive one extra item and offsets are the running prefix sum. -/
def ThreadPartitionStream (N T : Nat) : List ThreadPartition :=
  threadPartitionAux (N / T) (N % T) T 0 0

/-- The SLOC contribution of one file outcome: an unparsed file contributes
`0` (main.cpp line 182: "Erroneous files will be excluded from the
thread_sloc"). -/
def slocValue (o : Option Nat) : Nat := o.getD 0

/-- Models the per-file accumulation loop of `LineCountThreadTask`
(main.cpp lines 119-169): starting from `thread_sloc = 0`, for every index
of the worker's partition add the SLOC of the file at
`offset + index` (0 when that file failed to open, read or parse). -/
def LineCountWorkerSubtotal (outcomes : List (Option Nat)) (part : ThreadPartition) : Nat :=
  (List.range part.size).foldl
    (fun acc j => acc + slocValue ((outcomes[part.offset + j]?).getD none)) 0

/-- Models the Global Line Total after the final join (main.cpp lines 183,
336, 365): every worker `fetch_add`s its subtotal into the shared atomic,
so after the join the atomic holds the sum of the per-worker subtotals. -/
def GlobalLineTotal (outcomes : List (Option Nat)) (T : Nat) : Nat :=
  ((ThreadPartitionStream outcomes.length T).map (LineCountWorkerSubtotal outcomes)).sum

/-- The serial sum of the independently computed per-file SLOC values. -/
def SerialSlocSum (outcomes : List (Option Nat)) : Nat :=
  (outcomes.map slocValue).sum

/-- Models the root-path reading loop of `main` (main.cpp lines 267-285),
with `ps` the remaining newline offsets and `start` the running
`starting_position`.  For each newline offset `p`: skip whitespace from
`start + 1` (sic — the line's first character is never examined); if that
lands exactly on `p` the line is dropped, otherwise the characters
`[start, p)` are converted and added as one search path.  (The code also
overwrites `content[p]` with `'\0'` and copies `p - start + 1` characters,
so the stored path additionally carries a trailing NUL; the model stores
the line text.) -/
def parseSearchPathsLoop (content : List Char) : List Nat → Nat → List (List Char)
  | [], _ => []
  | p :: rest, start =>
    if skipWhitespaceIdx content (start + 1) = p then parseSearchPathsLoop content rest (p + 1)
    else ((content.drop start).take (p - start)) :: parseSearchPathsLoop content rest (p + 1)

/-- Models main.cpp lines 260-285: find every newline of the root-path
list (into a stack stream of capacity 1024 — overflowing it asserts,
`none`), then run the path-collection loop.  Only the
`new_line_positions.size` newline-terminated lines are ever considered. -/
def parseSearchPaths (content : List Char) : Option (List (List Char)) :=
  if SEARCH_PATH_NEW_LINE_CAPACITY < (findToken content '\n').length then none
  else some (parseSearchPathsLoop content (findToken content '\n') 0)

/-- Which terminated lines of the root-path list the loop keeps: the code
drops a line exactly when it is nonempty and everything after its first
character (which is never examined) is whitespace.  (Specification-side
characterization used by the amended claim.) -/
def keepsLine (l : List Char) : Bool :=
  l.isEmpty || !((l.drop 1).all isWhitespaceChar)

/-- Models main.cpp line 306: the coordinator arms the barrier with
`Enter(thread_count * 2 + 1)` before the discovery phase. -/
def mainBarrierEnterCount (T : Nat) : Nat := T * 2 + 1

/-- Modelled from the spec: `Semaphore::Exit()` atomically registers one
arrival and returns the pre-decrement value of the shared counter; since
the counter is touched by atomic operations only, the `k`-th `Exit` (in the
linearization order, 1-based) observes `initial - (k - 1)`. -/
def semaphoreExitValue (initial k : Nat) : Nat := initial - (k - 1)

/-- The `enter_index` observed at main.cpp line 96 by the counting worker
that is the `j`-th (0-based) to reach the counting phase: the barrier was
armed with `2T + 1` and the `T` discovery workers have already exited once
each, so this is the `(T + 1 + j)`-th `Exit` overall. -/
def countingEnterIndex (T j : Nat) : Nat :=
  semaphoreExitValue (mainBarrierEnterCount T) (T + 1 + j)

/-- What a counting worker does between main.cpp lines 95-106. -/
inductive CountingEntryAction where
  /-- Elected leader: recompute the counting partitions over the
  discovered-file count and publish the sentinel. -/
  | lead (partitions : List ThreadPartition)
  /-- Not elected: spin-wait on the target field for the sentinel. -/
  | followerWait
deriving DecidableEq

/-- Models main.cpp lines 97-106: the worker whose `enter_index` equals
`thread_count + 1` (and who does not already observe the published
sentinel) recomputes the partitions over the discovered-file count and
publishes `signal_initialization_finished`; everyone else spin-waits. -/
def countingEntry (T fileCount enterIndex target : Nat) : CountingEntryAction :=
  if enterIndex = T + 1 ∧ target ≠ signalInitializationFinished then
    .lead (ThreadPartitionStream fileCount T)
  else .followerWait

/-- Modelled from the spec: `SpinWait` re-reads the target field and
returns exactly when it equals the sentinel. -/
def spinWaitProceeds (target sentinel : Nat) : Bool := target == sentinel

/-- How a whole run terminates. -/
inductive ProcessResult where
  | exitCode (code : Nat)
  /-- killed by a failed `ECS_ASSERT` inside a worker. -/
  | abortedBySignal
deriving DecidableEq

/-- Models the exit paths of `main`: `exit(1)` at line 257 when the
root-path list cannot be read; otherwise the run completes and returns `0`
at line 408 — unless some per-file parse hits a failed assertion
(unterminated multi-line comment, per-file line cap), which kills the
process.  Per-file open/read failures and the (unreachable) `sloc == -1`
branch only record errors and are non-fatal. -/
def mainProcessResult (rootListReadable : Bool) (outcomes : List FileParseOutcome) :
    ProcessResult :=
  if !rootListReadable then .exitCode 1
  else if outcomes.any (fun o => decide (o = .abort)) then .abortedBySignal
  else .exitCode 0

/-- Proof-side abbreviation: the tail of `GetSloc`'s computation — the
verify loop run from an arbitrary starting count `sloc`.  `GetSlocRun
content = tailRun content (terminator_count + 1)`. -/
def tailRun (content : List Char) (sloc : Nat) : Nat :=
  (verifyLine content ((findToken content '\n').foldl (verifyLine content) (sloc, 0))
    content.length).1

/-! ### Basic facts about the character classes and the whitespace scan -/

theorem ws_not_ident (c : Char) (h : isWhitespaceChar c = true) :
    isCodeIdentifierCharacter c = false := by
  simp only [isWhitespaceChar, Bool.or_eq_true, beq_iff_eq] at h
  rcases h with h | h <;> subst h <;> decide

theorem newline_not_ws : isWhitespaceChar '\n' = false := by decide

theorem skipWhitespaceCount_le_length (l : List Char) :
    skipWhitespaceCount l ≤ l.length := by
  induction l with
  | nil => simp [skipWhitespaceCount]
  | cons c rest ih =>
    simp only [skipWhitespaceCount, List.length_cons]
    split <;> omega

theorem skipWhitespaceCount_prefix (l : List Char) (j : Nat)
    (h : j < skipWhitespaceCount l) :
    ∃ c, l[j]? = some c ∧ isWhitespaceChar c = true := by
  induction l generalizing j with
  | nil => simp [skipWhitespaceCount] at h
  | cons c rest ih =>
    simp only [skipWhitespaceCount] at h
    by_cases hw : isWhitespaceChar c = true
    · cases j with
      | zero => exact ⟨c, by simp, hw⟩
      | succ j =>
        rw [if_pos hw] at h
        obtain ⟨d, hd, hdw⟩ := ih j (by omega)
        exact ⟨d, by simpa using hd, hdw⟩
    · rw [if_neg hw] at h
      omega

theorem skipWhitespaceCount_le_of_not_ws (l : List Char) (j : Nat) (c : Char)
    (hj : l[j]? = some c) (hc : isWhitespaceChar c = false) :
    skipWhitespaceCount l ≤ j := by
  by_contra h
  obtain ⟨d, hd, hdw⟩ := skipWhitespaceCount_prefix l j (by omega)
  rw [hj] at hd
  cases hd
  rw [hdw] at hc
  cases hc

theorem skipWhitespaceCount_all_ws (l : List Char) (h : l.all isWhitespaceChar = true) :
    skipWhitespaceCount l = l.length := by
  induction l with
  | nil => simp [skipWhitespaceCount]
  | cons c rest ih =>
    simp only [List.all_cons, Bool.and_eq_true] at h
    simp [skipWhitespaceCount, h.1, ih h.2]

theorem skipWhitespaceCount_lt_of_not_all (l : List Char)
    (h : ¬ l.all isWhitespaceChar = true) :
    skipWhitespaceCount l < l.length := by
  induction l with
  | nil => simp at h
  | cons c rest ih =>
    simp only [List.all_cons, Bool.and_eq_true] at h
    simp only [skipWhitespaceCount, List.length_cons]
    by_cases hw : isWhitespaceChar c = true
    · rw [if_pos hw]
      have : ¬ rest.all isWhitespaceChar = true := fun hr => h ⟨hw, hr⟩
      have := ih this
      omega
    · rw [if_neg hw]
      omega

theorem skipWhitespaceCount_append (a b : List Char) :
    skipWhitespaceCount (a ++ b) =
      if a.all isWhitespaceChar then a.length + skipWhitespaceCount b
      else skipWhitespaceCount a := by
  induction a with
  | nil => simp [skipWhitespaceCount]
  | cons c rest ih =>
    simp only [List.cons_append, skipWhitespaceCount, List.all_cons, List.length_cons,
      List.append_eq]
    by_cases hw : isWhitespaceChar c = true
    · rw [if_pos hw, if_pos hw, ih]
      simp only [hw, Bool.true_and]
      split <;> omega
    · rw [if_neg hw, if_neg hw]
      simp [hw]

theorem skipWhitespaceCount_stop (l : List Char)
    (h : skipWhitespaceCount l < l.length) :
    ∃ c, l[skipWhitespaceCount l]? = some c ∧ isWhitespaceChar c = false := by
  induction l with
  | nil => simp at h
  | cons c rest ih =>
    by_cases hw : isWhitespaceChar c = true
    · have hlt : skipWhitespaceCount rest < rest.length := by
        simp only [skipWhitespaceCount, if_pos hw, List.length_cons] at h
        omega
      obtain ⟨d, hd, hdw⟩ := ih hlt
      refine ⟨d, ?_, hdw⟩
      simp only [skipWhitespaceCount, if_pos hw]
      simpa using hd
    · refine ⟨c, ?_, by simpa using hw⟩
      simp [skipWhitespaceCount, hw]

/-! ### Facts about `findToken` -/

theorem findTokenAux_shift (tok : Char) (l : List Char) (i : Nat) :
    findTokenAux tok l i = (findTokenAux tok l 0).map (fun x => x + i) := by
  induction l generalizing i with
  | nil => simp [findTokenAux]
  | cons c rest ih =>
    simp only [findTokenAux]
    by_cases hc : c = tok
    · rw [if_pos hc, if_pos hc]
      simp only [List.map_cons, Nat.zero_add]
      congr 1
      rw [ih (i + 1), ih 1, List.map_map]
      apply List.map_congr_left
      intro x _
      simp
      omega
    · rw [if_neg hc, if_neg hc, ih (i + 1), ih 1, List.map_map]
      apply List.map_congr_left
      intro x _
      simp
      omega

theorem findTokenAux_append (tok : Char) (a b : List Char) (i : Nat) :
    findTokenAux tok (a ++ b) i = findTokenAux tok a i ++ findTokenAux tok b (i + a.length) := by
  induction a generalizing i with
  | nil => simp [findTokenAux]
  | cons c rest ih =>
    simp only [List.cons_append, findTokenAux, List.length_cons, List.append_eq]
    by_cases hc : c = tok
    · rw [if_pos hc, if_pos hc, ih]
      simp only [List.cons_append]
      have : i + 1 + rest.length = i + (rest.length + 1) := by omega
      rw [this]
    · rw [if_neg hc, if_neg hc, ih]
      have : i + 1 + rest.length = i + (rest.length + 1) := by omega
      rw [this]

theorem findTokenAux_nil_of_not_mem (tok : Char) (l : List Char) (h : tok ∉ l) (i : Nat) :
    findTokenAux tok l i = [] := by
  induction l generalizing i with
  | nil => simp [findTokenAux]
  | cons c rest ih =>
    simp only [List.mem_cons, not_or] at h
    simp only [findTokenAux]
    rw [if_neg (fun hc => h.1 hc.symm)]
    exact ih h.2 _

theorem findTokenAux_length (tok : Char) (l : List Char) (i : Nat) :
    (findTokenAux tok l i).length = l.count tok := by
  induction l generalizing i with
  | nil => simp [findTokenAux]
  | cons c rest ih =>
    simp only [findTokenAux, List.count_cons]
    by_cases hc : c = tok
    · rw [if_pos hc]
      simp [ih, hc]
    · rw [if_neg hc]
      have : ¬ (c == tok) = true := by simpa using hc
      simp [ih, this]

theorem findToken_length (content : List Char) (tok : Char) :
    (findToken content tok).length = content.count tok := findTokenAux_length tok content 0

theorem findToken_nil_of_not_mem (tok : Char) (l : List Char) (h : tok ∉ l) :
    findToken l tok = [] := findTokenAux_nil_of_not_mem tok l h 0

theorem findToken_decomp (l r : List Char) (h : '\n' ∉ l) :
    findToken (l ++ '\n' :: r) '\n' =
      l.length :: (findToken r '\n').map (fun x => x + (l.length + 1)) := by
  unfold findToken
  rw [findTokenAux_append, findTokenAux_nil_of_not_mem _ _ h]
  simp only [List.nil_append, Nat.zero_add, findTokenAux]
  simp only [if_true]
  rw [findTokenAux_shift]

theorem findTokenAux_mem (tok : Char) (l : List Char) (i p : Nat)
    (h : p ∈ findTokenAux tok l i) : i ≤ p ∧ l[p - i]? = some tok := by
  induction l generalizing i with
  | nil => simp [findTokenAux] at h
  | cons c rest ih =>
    simp only [findTokenAux] at h
    by_cases hc : c = tok
    · rw [if_pos hc] at h
      rcases List.mem_cons.mp h with h | h
      · subst h
        simp [hc]
      · obtain ⟨h1, h2⟩ := ih (i + 1) h
        refine ⟨by omega, ?_⟩
        have : p - i = (p - (i + 1)) + 1 := by omega
        rw [this]
        simpa using h2
    · rw [if_neg hc] at h
      obtain ⟨h1, h2⟩ := ih (i + 1) h
      refine ⟨by omega, ?_⟩
      have : p - i = (p - (i + 1)) + 1 := by omega
      rw [this]
      simpa using h2

theorem findToken_mem (content : List Char) (tok : Char) (p : Nat)
    (h : p ∈ findToken content tok) : content[p]? = some tok := by
  have := findTokenAux_mem tok content 0 p h
  simpa using this.2

/-! ### Facts about `splitLines` -/

theorem splitLines_ne_nil (l : List Char) : splitLines l ≠ [] := by
  cases l with
  | nil => simp [splitLines]
  | cons c rest =>
    simp only [splitLines]
    split <;> simp

theorem splitLines_length (l : List Char) :
    (splitLines l).length = l.count '\n' + 1 := by
  induction l with
  | nil => simp [splitLines]
  | cons c rest ih =>
    simp only [splitLines, List.count_cons]
    by_cases hc : c = '\n'
    · rw [if_pos hc]
      simp [ih, hc]
    · rw [if_neg hc]
      have hne := splitLines_ne_nil rest
      have hbeq : ¬ (c == '\n') = true := by simpa using hc
      simp only [List.length_cons, hbeq, if_neg]
      cases hsp : splitLines rest with
      | nil => exact absurd hsp hne
      | cons a as =>
        rw [hsp] at ih
        simp only [List.length_cons] at ih ⊢
        simp [hbeq]
        omega

theorem splitLines_no_newline (l : List Char) (h : '\n' ∉ l) : splitLines l = [l] := by
  induction l with
  | nil => simp [splitLines]
  | cons c rest ih =>
    simp only [List.mem_cons, not_or] at h
    simp only [splitLines]
    rw [if_neg (fun hc => h.1 hc.symm), ih h.2]
    simp

theorem splitLines_decomp (l r : List Char) (h : '\n' ∉ l) :
    splitLines (l ++ '\n' :: r) = l :: splitLines r := by
  induction l with
  | nil => simp [splitLines]
  | cons c rest ih =>
    simp only [List.mem_cons, not_or] at h
    simp only [List.cons_append, splitLines, List.append_eq]
    rw [if_neg (fun hc => h.1 hc.symm), ih h.2]
    simp

theorem newline_mem_decomp (content : List Char) (h : '\n' ∈ content) :
    ∃ l r, content = l ++ '\n' :: r ∧ '\n' ∉ l := by
  induction content with
  | nil => simp at h
  | cons c rest ih =>
    by_cases hc : c = '\n'
    · exact ⟨[], rest, by simp [hc], by simp⟩
    · have : '\n' ∈ rest := by
        rcases List.mem_cons.mp h with h | h
        · exact absurd h.symm hc
        · exact h
      obtain ⟨l, r, hd, hnl⟩ := ih this
      refine ⟨c :: l, r, by simp [hd], ?_⟩
      intro hmem
      rcases List.mem_cons.mp hmem with he | he
      · exact hc he.symm
      · exact hnl he

theorem lineHasSloc_eq_any (l : List Char) :
    lineHasSloc l = l.any isCodeIdentifierCharacter := by
  induction l with
  | nil => simp [lineHasSloc]
  | cons c rest ih =>
    simp only [lineHasSloc, List.dropWhile_cons]
    by_cases hw : isWhitespaceChar c = true
    · rw [if_pos hw]
      simp only [List.any_cons, ws_not_ident c hw, Bool.false_or]
      exact ih
    · rw [if_neg hw]

/-! ### Evaluating `verify_line` on one well-formed line -/

theorem skipWhitespaceCount_eq_zero (l : List Char) (c : Char)
    (h : l[0]? = some c) (hc : isWhitespaceChar c = false) :
    skipWhitespaceCount l = 0 := by
  cases l with
  | nil => simp at h
  | cons d rest =>
    simp only [List.getElem?_cons_zero, Option.some.injEq] at h
    subst h
    simp [skipWhitespaceCount, hc]

theorem take_ws_any_false (content : List Char) (s k : Nat)
    (hk : k ≤ skipWhitespaceCount (content.drop s)) :
    ((content.drop s).take k).any isCodeIdentifierCharacter = false := by
  rw [List.any_eq_false]
  intro x hx
  obtain ⟨j, hj⟩ := List.mem_iff_getElem?.mp hx
  rw [List.getElem?_take] at hj
  by_cases hjk : j < k
  · rw [if_pos hjk] at hj
    obtain ⟨c, hc, hcw⟩ := skipWhitespaceCount_prefix (content.drop s) j (by omega)
    rw [hj] at hc
    cases hc
    simp [ws_not_ident x hcw]
  · rw [if_neg hjk] at hj
    cases hj

theorem verifyLine_eval (content : List Char) (sloc s e : Nat) (hse : s ≤ e)
    (hstop : e = content.length ∨ ∃ c, content[e]? = some c ∧ isWhitespaceChar c = false) :
    verifyLine content (sloc, s) e =
      (if ((content.drop s).take (e - s)).any isCodeIdentifierCharacter then sloc
       else sloc - 1, e + 1) := by
  have hlen : e ≤ content.length := by
    rcases hstop with h | ⟨c, hc, _⟩
    · omega
    · by_contra hgt
      rw [List.getElem?_eq_none (by omega)] at hc
      cases hc
  have hidx : skipWhitespaceIdx content s = s + skipWhitespaceCount (content.drop s) := rfl
  have hf : s + skipWhitespaceCount (content.drop s) ≤ e := by
    rcases hstop with h | ⟨c, hc, hcw⟩
    · have := skipWhitespaceCount_le_length (content.drop s)
      simp only [List.length_drop] at this
      omega
    · have hdc : (content.drop s)[e - s]? = some c := by
        rw [List.getElem?_drop]
        have hes : s + (e - s) = e := by omega
        rw [hes, hc]
      have := skipWhitespaceCount_le_of_not_ws (content.drop s) (e - s) c hdc hcw
      omega
  by_cases hblank : skipWhitespaceIdx content s = e
  · -- the whole line is whitespace: the blank-line branch fires
    have hseg : ((content.drop s).take (e - s)).any isCodeIdentifierCharacter = false := by
      apply take_ws_any_false
      omega
    simp only [verifyLine]
    rw [if_pos hblank, hseg]
    simp
  · -- the scan stops strictly before the line end at a non-whitespace char
    have hflt : s + skipWhitespaceCount (content.drop s) < e := by omega
    have hkl : skipWhitespaceCount (content.drop s) < (content.drop s).length := by
      simp only [List.length_drop]
      omega
    obtain ⟨c, hc, hcw⟩ := skipWhitespaceCount_stop (content.drop s) hkl
    rw [List.getElem?_drop] at hc
    have hzero : skipWhitespaceCount (content.drop (s + skipWhitespaceCount (content.drop s))) = 0 := by
      apply skipWhitespaceCount_eq_zero _ c _ hcw
      rw [List.getElem?_drop]
      simpa using hc
    have hinner : skipWhitespaceIdx content (s + skipWhitespaceCount (content.drop s)) =
        s + skipWhitespaceCount (content.drop s) := by
      unfold skipWhitespaceIdx
      rw [hzero]
      omega
    have hsplit : ((content.drop s).take (e - s)).any isCodeIdentifierCharacter =
        ((content.drop (s + skipWhitespaceCount (content.drop s))).take
          (e - (s + skipWhitespaceCount (content.drop s)))).any isCodeIdentifierCharacter := by
      have hes : e - s = skipWhitespaceCount (content.drop s) +
          (e - (s + skipWhitespaceCount (content.drop s))) := by omega
      rw [hes, List.take_add, List.any_append]
      rw [take_ws_any_false content s (skipWhitespaceCount (content.drop s)) (by omega)]
      rw [List.drop_drop]
      have hsk : s + skipWhitespaceCount (content.drop s) =
          skipWhitespaceCount (content.drop s) + s := by omega
      rw [hsk, Bool.false_or]
    have hnlt : ¬ e < s + skipWhitespaceCount (content.drop s) := by omega
    simp only [verifyLine]
    rw [if_neg hblank]
    simp only [AreSlocCharacters, hidx, hinner, if_neg hnlt]
    simp only [hsplit]

/-! ### Shifting the verify loop across a leading line -/

theorem drop_shift (l r : List Char) (c : Char) (k : Nat) :
    (l ++ c :: r).drop (l.length + 1 + k) = r.drop k := by
  have h : l.length + 1 + k = l.length + (1 + k) := by omega
  rw [h, List.drop_append, Nat.add_comm 1 k]
  rfl

theorem skipWhitespaceIdx_shift (l r : List Char) (c : Char) (k : Nat) :
    skipWhitespaceIdx (l ++ c :: r) (l.length + 1 + k) = l.length + 1 + skipWhitespaceIdx r k := by
  unfold skipWhitespaceIdx
  rw [drop_shift]
  omega

theorem areSlocCharacters_shift (l r : List Char) (c : Char) (f e : Nat) :
    AreSlocCharacters (l ++ c :: r) (l.length + 1 + f) (l.length + 1 + e) =
      AreSlocCharacters r f e := by
  unfold AreSlocCharacters
  rw [skipWhitespaceIdx_shift, drop_shift]
  have h2 : l.length + 1 + e - (l.length + 1 + skipWhitespaceIdx r f) =
      e - skipWhitespaceIdx r f := by omega
  rw [h2]
  by_cases hlt : e < skipWhitespaceIdx r f
  · rw [if_pos (by omega), if_pos hlt]
  · rw [if_neg (by omega), if_neg hlt]

theorem verifyLine_snd (content : List Char) (st : Nat × Nat) (e : Nat) :
    verifyLine content st e = ((verifyLine content st e).1, e + 1) := by
  unfold verifyLine
  split <;> rfl

theorem verifyLine_shift (l r : List Char) (c : Char) (sloc s e : Nat) :
    verifyLine (l ++ c :: r) (sloc, l.length + 1 + s) (l.length + 1 + e) =
      ((verifyLine r (sloc, s) e).1, l.length + 1 + (e + 1)) := by
  have hassoc : l.length + 1 + e + 1 = l.length + 1 + (e + 1) := by omega
  simp only [verifyLine, skipWhitespaceIdx_shift, areSlocCharacters_shift]
  by_cases heq : skipWhitespaceIdx r s = e
  · rw [if_pos (by omega), if_pos heq, hassoc]
  · rw [if_neg (by omega), if_neg heq, hassoc]

theorem foldl_verifyLine_shift (l r : List Char) (c : Char) (ps : List Nat) :
    ∀ sloc s : Nat,
      (ps.map (fun x => x + (l.length + 1))).foldl (verifyLine (l ++ c :: r))
          (sloc, l.length + 1 + s) =
        ((ps.foldl (verifyLine r) (sloc, s)).1,
          l.length + 1 + (ps.foldl (verifyLine r) (sloc, s)).2) := by
  induction ps with
  | nil => intro sloc s; rfl
  | cons p rest ih =>
    intro sloc s
    simp only [List.map_cons, List.foldl_cons]
    have hc : p + (l.length + 1) = l.length + 1 + p := by omega
    rw [hc, verifyLine_shift]
    have h2 := ih (verifyLine r (sloc, s) p).1 (p + 1)
    rw [← verifyLine_snd r (sloc, s) p] at h2
    exact h2

/-! ### The tail of `GetSloc` computes the specification count -/

theorem tailRun_no_newline (content : List Char) (h : '\n' ∉ content) (sloc : Nat) :
    tailRun content sloc =
      if content.any isCodeIdentifierCharacter then sloc else sloc - 1 := by
  unfold tailRun
  rw [findToken_nil_of_not_mem _ _ h]
  simp only [List.foldl_nil]
  rw [verifyLine_eval content sloc 0 content.length (by omega) (Or.inl rfl)]
  simp [List.take_length]

theorem tailRun_decomp (l r : List Char) (h : '\n' ∉ l) (sloc : Nat) :
    tailRun (l ++ '\n' :: r) sloc =
      tailRun r (if l.any isCodeIdentifierCharacter then sloc else sloc - 1) := by
  unfold tailRun
  rw [findToken_decomp l r h]
  simp only [List.foldl_cons]
  have hfirst := verifyLine_eval (l ++ '\n' :: r) sloc 0 l.length (by omega)
    (Or.inr ⟨'\n', by rw [List.getElem?_append_right (by omega)]; simp, newline_not_ws⟩)
  simp only [List.drop_zero, Nat.sub_zero] at hfirst
  simp only [List.take_left] at hfirst
  rw [hfirst]
  have hstart : ((if l.any isCodeIdentifierCharacter then sloc else sloc - 1 : Nat),
      l.length + 1) =
      ((if l.any isCodeIdentifierCharacter then sloc else sloc - 1 : Nat),
      l.length + 1 + 0) := rfl
  rw [hstart, foldl_verifyLine_shift]
  have hlen2 : (l ++ '\n' :: r).length = l.length + 1 + r.length := by
    simp [List.length_append]
    omega
  rw [hlen2, verifyLine_shift]

theorem tailRun_spec_aux (n : Nat) :
    ∀ content : List Char, content.length ≤ n → ∀ sloc : Nat,
      (findToken content '\n').length + 1 ≤ sloc →
      tailRun content sloc + ((findToken content '\n').length + 1) =
        sloc + slocSpec content := by
  induction n with
  | zero =>
    intro content hlen sloc hsloc
    have hnil : content = [] := by
      cases content with
      | nil => rfl
      | cons c rest => simp at hlen
    subst hnil
    have hft : findToken ([] : List Char) '\n' = [] := rfl
    rw [hft] at hsloc ⊢
    rw [tailRun_no_newline [] (by simp) sloc]
    simp [slocSpec, splitLines, lineHasSloc]
    omega
  | succ n ih =>
    intro content hlen sloc hsloc
    by_cases hmem : '\n' ∈ content
    · obtain ⟨l, r, rfl, hnl⟩ := newline_mem_decomp content hmem
      rw [findToken_decomp l r hnl] at hsloc ⊢
      simp only [List.length_cons, List.length_map] at hsloc ⊢
      have hrlen : r.length ≤ n := by
        rw [List.length_append, List.length_cons] at hlen
        omega
      rw [tailRun_decomp l r hnl sloc]
      have hsloc1 : (findToken r '\n').length + 1 ≤
          (if l.any isCodeIdentifierCharacter then sloc else sloc - 1) := by
        split <;> omega
      have hrec := ih r hrlen _ hsloc1
      have hsp : slocSpec (l ++ '\n' :: r) =
          slocSpec r + if lineHasSloc l then 1 else 0 := by
        rw [slocSpec, splitLines_decomp l r hnl, List.countP_cons]
        rfl
      rw [hsp, lineHasSloc_eq_any]
      by_cases hany : l.any isCodeIdentifierCharacter = true
      · rw [if_pos hany] at hrec ⊢
        rw [hany]
        simp only [if_true]
        omega
      · have hany' : l.any isCodeIdentifierCharacter = false := by
          cases hx : l.any isCodeIdentifierCharacter
          · rfl
          · exact absurd hx hany
        rw [if_neg hany] at hrec ⊢
        rw [hany']
        simp only [Bool.false_eq_true, if_false]
        omega
    · rw [findToken_nil_of_not_mem _ _ hmem] at hsloc ⊢
      rw [tailRun_no_newline content hmem sloc]
      rw [slocSpec, splitLines_no_newline content hmem]
      simp only [List.length_nil, List.countP_cons, List.countP_nil]
      rw [lineHasSloc_eq_any]
      split <;> simp <;> omega

theorem GetSlocRun_eq_slocSpec (content : List Char) :
    GetSlocRun content = slocSpec content := by
  have h : GetSlocRun content = tailRun content ((findToken content '\n').length + 1) := rfl
  have h2 := tailRun_spec_aux content.length content (by omega)
    ((findToken content '\n').length + 1) (by omega)
  omega

/-! ### Bounds on the value returned by `GetSloc` -/

theorem slocSpec_le (content : List Char) :
    slocSpec content ≤ (findToken content '\n').length + 1 := by
  have h1 : slocSpec content ≤ (splitLines content).length := List.countP_le_length _
  rw [splitLines_length, findToken_length] at *
  omega

theorem GetSloc_le (content : List Char) (v : Nat) (h : GetSloc content = some v) :
    v ≤ ECS_MAX_NEW_LINES_PER_FILE := by
  unfold GetSloc at h
  by_cases hc : ECS_MAX_NEW_LINES_PER_FILE ≤ (findToken content '\n').length
  · rw [if_pos hc] at h
    cases h
  · rw [if_neg hc] at h
    injection h with h2
    have h3 := slocSpec_le content
    rw [GetSlocRun_eq_slocSpec] at h2
    omega

theorem processFileContent_ne_fileError (raw : List Char) :
    processFileContent raw ≠ FileParseOutcome.fileError := by
  unfold processFileContent
  cases hm : RemoveMultiLineComments (RemoveSingleLineComment raw) with
  | none => simp
  | some stripped =>
    simp only [Option.elim_some]
    cases hg : GetSloc stripped with
    | none => simp
    | some v =>
      simp only [Option.elim_some]
      have hle := GetSloc_le stripped v hg
      have hmax : ECS_MAX_NEW_LINES_PER_FILE = 131072 := by norm_num [ECS_MAX_NEW_LINES_PER_FILE]
      have hsz : SIZE_T_MINUS_ONE = 18446744073709551615 := by norm_num [SIZE_T_MINUS_ONE]
      rw [if_neg (by omega)]
      simp

/-! ### Comment removal on slash-free inputs -/

theorem removeSingleAux_no_slash (l : List Char) (h : '/' ∉ l) :
    removeSingleAux false l = l := by
  induction l with
  | nil => rfl
  | cons c rest ih =>
    simp only [List.mem_cons, not_or] at h
    simp only [removeSingleAux, Bool.false_eq_true, if_false]
    rw [if_neg (fun hx => h.1 hx.1.symm), ih h.2]

theorem removeMultiAux_no_slash (l : List Char) (h : '/' ∉ l) :
    removeMultiAux MultiScanState.outside l = some l := by
  induction l with
  | nil => rfl
  | cons c rest ih =>
    simp only [List.mem_cons, not_or] at h
    rw [removeMultiAux]
    rw [if_neg (fun hx => h.1 hx.1.symm), ih h.2]
    rfl

theorem findToken_replicate_length (n : Nat) :
    (findToken (List.replicate n '\n') '\n').length = n := by
  rw [findToken_length, List.count_replicate_self]

/-! ### Claim C1 -/

/-- C1: for every file text (after comment removal) whose line-terminator
count is below the per-file maximum, `GetSloc` returns exactly the number
of logical lines (`terminator_count + 1` of them, including a
possibly-empty trailing line) that, after skipping leading whitespace,
contain at least one letter, digit, or underscore before the line's end;
blank lines and lines of pure punctuation or braces do not count. -/
theorem GetSloc_counts_identifier_lines (content : List Char)
    (h : (findToken content '\n').length < ECS_MAX_NEW_LINES_PER_FILE) :
    GetSloc content = some (slocSpec content) := by
  unfold GetSloc
  rw [if_neg (by omega), GetSlocRun_eq_slocSpec]

/-- Witness for C1 at the concrete text consisting of the line `int x;`,
a blank line, and a line holding a single opening brace (written with its
hex escape): four logical lines, of which only `int x;` counts. -/
theorem GetSloc_counts_identifier_lines_witness :
    (findToken ("int x;\n\n\x7b\n".toList) '\n').length < ECS_MAX_NEW_LINES_PER_FILE ∧
      GetSloc ("int x;\n\n\x7b\n".toList) = some 1 := by
  refine ⟨by decide, ?_⟩
  rw [GetSloc_counts_identifier_lines ("int x;\n\n\x7b\n".toList) (by decide)]
  decide

/-! ### Claim C9 -/

/-- C9: for every input below the per-file line cap, `GetSloc` returns a
value in `[0, terminator_count + 1]` and never `(size_t)-1`; consequently
the `sloc == -1` per-file parse-failure branch of the counting worker
(main.cpp lines 148-152) is unreachable on every input. -/
theorem GetSloc_never_minus_one (content : List Char)
    (h : (findToken content '\n').length < ECS_MAX_NEW_LINES_PER_FILE) :
    (∃ v, GetSloc content = some v ∧ v ≤ (findToken content '\n').length + 1 ∧
      v ≠ SIZE_T_MINUS_ONE) ∧
    (∀ raw : List Char, processFileContent raw ≠ FileParseOutcome.fileError) := by
  constructor
  · refine ⟨slocSpec content, ?_, slocSpec_le content, ?_⟩
    · unfold GetSloc
      rw [if_neg (by omega), GetSlocRun_eq_slocSpec]
    · have h1 := slocSpec_le content
      have hmax : ECS_MAX_NEW_LINES_PER_FILE = 131072 := by
        norm_num [ECS_MAX_NEW_LINES_PER_FILE]
      have hsz : SIZE_T_MINUS_ONE = 18446744073709551615 := by
        norm_num [SIZE_T_MINUS_ONE]
      omega
  · exact processFileContent_ne_fileError

/-- Witness for C9 at the one-line text `"a"`. -/
theorem GetSloc_never_minus_one_witness :
    (findToken ("a".toList) '\n').length < ECS_MAX_NEW_LINES_PER_FILE ∧
    ((∃ v, GetSloc ("a".toList) = some v ∧
        v ≤ (findToken ("a".toList) '\n').length + 1 ∧ v ≠ SIZE_T_MINUS_ONE) ∧
      (∀ raw : List Char, processFileContent raw ≠ FileParseOutcome.fileError)) :=
  ⟨by decide, GetSloc_never_minus_one ("a".toList) (by decide)⟩

/-! ### Claim C3 -/

/-- C3: a file containing a multi-line comment open token with no matching
close token does not reach the per-file error branch: the comment
stripping aborts the whole process (the `sloc == -1` branch that was meant
to record the error is unreachable, as `GetSloc` never returns `-1`). -/
theorem unterminated_comment_aborts :
    processFileContent ("/* x".toList) = FileParseOutcome.abort ∧
      processFileContent ("/* x".toList) ≠ FileParseOutcome.fileError := by
  constructor
  · decide
  · decide

/-! ### Claim C4 -/

/-- Counterexample to C4 as stated: on the file consisting of exactly
`MAX_NEW_LINES_PER_FILE` line terminators, `GetSloc` asserts (`none`, a
process abort) instead of producing a recorded per-file failure, and the
per-file error branch of the counting worker is not taken on that file. -/
theorem line_cap_not_per_file_error :
    GetSloc (List.replicate ECS_MAX_NEW_LINES_PER_FILE '\n') = none ∧
      processFileContent (List.replicate ECS_MAX_NEW_LINES_PER_FILE '\n') ≠
        FileParseOutcome.fileError := by
  constructor
  · unfold GetSloc
    rw [if_pos]
    rw [findToken_replicate_length]
  · exact processFileContent_ne_fileError _

/-- C4 amended: when a file's line-terminator count reaches
`MAX_NEW_LINES_PER_FILE`, the SLOC computation asserts and the process
aborts (`none`); no per-file error is recorded and processing does not
continue. -/
theorem line_cap_aborts (content : List Char)
    (h : ECS_MAX_NEW_LINES_PER_FILE ≤ (findToken content '\n').length) :
    GetSloc content = none := by
  unfold GetSloc
  rw [if_pos h]

/-- Witness for the amended C4 at a file of exactly
`MAX_NEW_LINES_PER_FILE` newline characters. -/
theorem line_cap_aborts_witness :
    ECS_MAX_NEW_LINES_PER_FILE ≤
      (findToken (List.replicate ECS_MAX_NEW_LINES_PER_FILE '\n') '\n').length ∧
    GetSloc (List.replicate ECS_MAX_NEW_LINES_PER_FILE '\n') = none := by
  have hlen : (findToken (List.replicate ECS_MAX_NEW_LINES_PER_FILE '\n') '\n').length =
      ECS_MAX_NEW_LINES_PER_FILE := findToken_replicate_length _
  exact ⟨by omega, line_cap_aborts _ (by omega)⟩

/-! ### The work partitioner -/

theorem threadPartitionAux_length (base rem t : Nat) :
    ∀ i off, (threadPartitionAux base rem t i off).length = t := by
  induction t with
  | zero => intro i off; rfl
  | succ t ih =>
    intro i off
    simp only [threadPartitionAux, List.length_cons, ih]

theorem threadPartitionAux_size_mem (base rem t : Nat) :
    ∀ i off p, p ∈ threadPartitionAux base rem t i off →
      p.size = base ∨ p.size = base + 1 := by
  induction t with
  | zero => intro i off p hp; simp [threadPartitionAux] at hp
  | succ t ih =>
    intro i off p hp
    simp only [threadPartitionAux, List.mem_cons] at hp
    rcases hp with hp | hp
    · subst hp
      by_cases hi : i < rem
      · rw [if_pos hi]
        right
        rfl
      · rw [if_neg hi]
        left
        rfl
    · exact ih _ _ p hp

theorem threadPartitionAux_sum (base rem t : Nat) :
    ∀ i off, ((threadPartitionAux base rem t i off).map ThreadPartition.size).sum =
      t * base + (min (i + t) rem - min i rem) := by
  induction t with
  | zero =>
    intro i off
    simp [threadPartitionAux]
  | succ t ih =>
    intro i off
    simp only [threadPartitionAux, List.map_cons, List.sum_cons, ih]
    rw [Nat.succ_mul]
    by_cases hi : i < rem
    · rw [if_pos hi]
      omega
    · rw [if_neg hi]
      omega

theorem threadPartitionAux_bounds (base rem t : Nat) :
    ∀ i off p, p ∈ threadPartitionAux base rem t i off →
      off ≤ p.offset ∧ p.offset + p.size ≤
        off + ((threadPartitionAux base rem t i off).map ThreadPartition.size).sum := by
  induction t with
  | zero => intro i off p hp; simp [threadPartitionAux] at hp
  | succ t ih =>
    intro i off p hp
    simp only [threadPartitionAux, List.mem_cons] at hp
    simp only [threadPartitionAux, List.map_cons, List.sum_cons]
    rcases hp with hp | hp
    · subst hp
      simp only []
      omega
    · have h2 := ih _ _ p hp
      omega

theorem threadPartitionAux_get_size (base rem t : Nat) :
    ∀ i off j p, (threadPartitionAux base rem t i off)[j]? = some p →
      p.size = if i + j < rem then base + 1 else base := by
  induction t with
  | zero => intro i off j p hp; simp [threadPartitionAux] at hp
  | succ t ih =>
    intro i off j p hp
    cases j with
    | zero =>
      simp only [threadPartitionAux, List.getElem?_cons_zero, Option.some.injEq] at hp
      subst hp
      simp only [Nat.add_zero]
    | succ j =>
      simp only [threadPartitionAux, List.getElem?_cons_succ] at hp
      have h2 := ih _ _ j p hp
      have h3 : i + 1 + j = i + (j + 1) := by omega
      rw [h3] at h2
      exact h2

theorem threadPartitionAux_adj (base rem t : Nat) :
    ∀ i off j p q, (threadPartitionAux base rem t i off)[j]? = some p →
      (threadPartitionAux base rem t i off)[j + 1]? = some q →
      q.offset = p.offset + p.size := by
  induction t with
  | zero => intro i off j p q hp _; simp [threadPartitionAux] at hp
  | succ t ih =>
    intro i off j p q hp hq
    cases j with
    | zero =>
      simp only [threadPartitionAux, List.getElem?_cons_zero, Option.some.injEq] at hp
      simp only [threadPartitionAux, List.getElem?_cons_succ] at hq
      subst hp
      cases t with
      | zero => simp [threadPartitionAux] at hq
      | succ t =>
        simp only [threadPartitionAux, List.getElem?_cons_zero, Option.some.injEq] at hq
        subst hq
        rfl
    | succ j =>
      simp only [threadPartitionAux, List.getElem?_cons_succ] at hp hq
      exact ih _ _ j p q hp hq

/-! ### Claim C5 -/

/-- C5: for all item counts `N` and worker counts `T > 0`,
`ThreadPartitionStream` returns `T` partitions whose sizes are
non-negative, sum exactly to `N`, and differ pairwise by at most one; the
first `N % T` partitions receive one extra item, the offsets are the
running prefix sum (the first offset is `0` and each next offset is the
previous offset plus the previous size), and when `N < T` some partition
has size `0`. -/
theorem threadPartitionStream_spec (N T : Nat) (hT : 0 < T) :
    (ThreadPartitionStream N T).length = T ∧
    (∀ p ∈ ThreadPartitionStream N T, 0 ≤ p.size) ∧
    ((ThreadPartitionStream N T).map ThreadPartition.size).sum = N ∧
    (∀ p ∈ ThreadPartitionStream N T, ∀ q ∈ ThreadPartitionStream N T,
      p.size ≤ q.size + 1) ∧
    (∀ j p, (ThreadPartitionStream N T)[j]? = some p →
      p.size = if j < N % T then N / T + 1 else N / T) ∧
    (∀ p, (ThreadPartitionStream N T)[0]? = some p → p.offset = 0) ∧
    (∀ j p q, (ThreadPartitionStream N T)[j]? = some p →
      (ThreadPartitionStream N T)[j + 1]? = some q →
      q.offset = p.offset + p.size) ∧
    (N < T → ∃ p ∈ ThreadPartitionStream N T, p.size = 0) := by
  have hmod : N % T < T := Nat.mod_lt N hT
  have hsum : ((ThreadPartitionStream N T).map ThreadPartition.size).sum = N := by
    unfold ThreadPartitionStream
    rw [threadPartitionAux_sum]
    have hdm : T * (N / T) + N % T = N := Nat.div_add_mod N T
    omega
  refine ⟨threadPartitionAux_length _ _ _ _ _, fun p _ => Nat.zero_le _, hsum, ?_, ?_, ?_, ?_, ?_⟩
  · intro p hp q hq
    rcases threadPartitionAux_size_mem _ _ _ _ _ p hp with h1 | h1 <;>
      rcases threadPartitionAux_size_mem _ _ _ _ _ q hq with h2 | h2 <;> omega
  · intro j p hp
    have h2 := threadPartitionAux_get_size (N / T) (N % T) T 0 0 j p hp
    simpa using h2
  · intro p hp
    have h0 : 0 < T := hT
    cases T with
    | zero => omega
    | succ t =>
      simp only [ThreadPartitionStream, threadPartitionAux, List.getElem?_cons_zero,
        Option.some.injEq] at hp
      subst hp
      rfl
  · intro j p q hp hq
    exact threadPartitionAux_adj _ _ _ _ _ j p q hp hq
  · intro hNT
    have hlen : (ThreadPartitionStream N T).length = T := threadPartitionAux_length _ _ _ _ _
    have hjlt : N < (ThreadPartitionStream N T).length := by omega
    refine ⟨(ThreadPartitionStream N T)[N], List.getElem_mem hjlt, ?_⟩
    have hget : (ThreadPartitionStream N T)[N]? = some ((ThreadPartitionStream N T)[N]) :=
      List.getElem?_eq_getElem hjlt
    have h2 := threadPartitionAux_get_size (N / T) (N % T) T 0 0 N _ hget
    have hdiv : N / T = 0 := Nat.div_eq_of_lt hNT
    have hmod2 : N % T = N := Nat.mod_eq_of_lt hNT
    rw [hdiv, hmod2] at h2
    simp only [Nat.zero_add] at h2
    rw [h2, if_neg (by omega)]

/-- Witness for C5 at `N = 5`, `T = 3`: partitions
`(0,2), (2,2), (4,1)`. -/
theorem threadPartitionStream_spec_witness :
    0 < 3 ∧
    ((ThreadPartitionStream 5 3).length = 3 ∧
    (∀ p ∈ ThreadPartitionStream 5 3, 0 ≤ p.size) ∧
    ((ThreadPartitionStream 5 3).map ThreadPartition.size).sum = 5 ∧
    (∀ p ∈ ThreadPartitionStream 5 3, ∀ q ∈ ThreadPartitionStream 5 3,
      p.size ≤ q.size + 1) ∧
    (∀ j p, (ThreadPartitionStream 5 3)[j]? = some p →
      p.size = if j < 5 % 3 then 5 / 3 + 1 else 5 / 3) ∧
    (∀ p, (ThreadPartitionStream 5 3)[0]? = some p → p.offset = 0) ∧
    (∀ j p q, (ThreadPartitionStream 5 3)[j]? = some p →
      (ThreadPartitionStream 5 3)[j + 1]? = some q →
      q.offset = p.offset + p.size) ∧
    (5 < 3 → ∃ p ∈ ThreadPartitionStream 5 3, p.size = 0)) :=
  ⟨by decide, threadPartitionStream_spec 5 3 (by decide)⟩

/-! ### Claim C2 -/

theorem foldl_add_sum {α : Type} (f : α → Nat) (l : List α) :
    ∀ a : Nat, l.foldl (fun acc x => acc + f x) a = a + (l.map f).sum := by
  induction l with
  | nil => intro a; simp
  | cons x rest ih =>
    intro a
    simp only [List.foldl_cons, List.map_cons, List.sum_cons, ih]
    omega

theorem slice_eq_range_map (o : List (Option Nat)) (off sz : Nat)
    (h : off + sz ≤ o.length) :
    (o.drop off).take sz = (List.range sz).map (fun j => (o[off + j]?).getD none) := by
  apply List.ext_getElem?
  intro n
  rw [List.getElem?_take, List.getElem?_drop, List.getElem?_map]
  by_cases hn : n < sz
  · rw [if_pos hn]
    rw [List.getElem?_range hn]
    have hlt : off + n < o.length := by omega
    simp [List.getElem?_eq_getElem hlt]
  · rw [if_neg hn]
    have hge : (List.range sz).length ≤ n := by
      rw [List.length_range]
      omega
    rw [List.getElem?_eq_none hge]
    rfl

theorem lineCountWorkerSubtotal_eq (outcomes : List (Option Nat)) (p : ThreadPartition)
    (h : p.offset + p.size ≤ outcomes.length) :
    LineCountWorkerSubtotal outcomes p =
      (((outcomes.drop p.offset).take p.size).map slocValue).sum := by
  unfold LineCountWorkerSubtotal
  rw [foldl_add_sum, slice_eq_range_map outcomes p.offset p.size h, List.map_map]
  simp only [Nat.zero_add]
  rfl

theorem slices_flatten (files : List (Option Nat)) (base rem t : Nat) :
    ∀ i off, ((threadPartitionAux base rem t i off).map
        (fun p => (files.drop p.offset).take p.size)).flatten =
      (files.drop off).take
        (((threadPartitionAux base rem t i off).map ThreadPartition.size).sum) := by
  induction t with
  | zero => intro i off; simp [threadPartitionAux]
  | succ t ih =>
    intro i off
    simp only [threadPartitionAux, List.map_cons, List.flatten_cons, List.sum_cons, ih]
    rw [List.take_add, List.drop_drop]

/-- C2: for every per-file outcome list and every worker count `T > 0`,
with the partitions the code computes over the discovered-file count: the
partition slices cover every discovered file exactly once (their
concatenation is the file list itself); each counting worker's subtotal is
exactly the sum of the SLOC values over its partition (failed files
contributing 0); and the Global Line Total — the sum of all worker
subtotals merged by atomic add — equals the serial sum of the
independently computed per-file SLOC values. -/
theorem global_total_eq_serial_sum (outcomes : List (Option Nat)) (T : Nat) (hT : 0 < T) :
    ((ThreadPartitionStream outcomes.length T).map
        (fun p => (outcomes.drop p.offset).take p.size)).flatten = outcomes ∧
    (∀ p ∈ ThreadPartitionStream outcomes.length T,
      LineCountWorkerSubtotal outcomes p =
        (((outcomes.drop p.offset).take p.size).map slocValue).sum) ∧
    GlobalLineTotal outcomes T = SerialSlocSum outcomes := by
  have hmod : outcomes.length % T < T := Nat.mod_lt _ hT
  have hsum : ((ThreadPartitionStream outcomes.length T).map ThreadPartition.size).sum =
      outcomes.length := by
    unfold ThreadPartitionStream
    rw [threadPartitionAux_sum]
    have hdm : T * (outcomes.length / T) + outcomes.length % T = outcomes.length :=
      Nat.div_add_mod _ T
    omega
  have hflat : ((ThreadPartitionStream outcomes.length T).map
      (fun p => (outcomes.drop p.offset).take p.size)).flatten = outcomes := by
    unfold ThreadPartitionStream at *
    rw [slices_flatten, hsum]
    simp
  have hbound : ∀ p ∈ ThreadPartitionStream outcomes.length T,
      p.offset + p.size ≤ outcomes.length := by
    intro p hp
    have h2 := threadPartitionAux_bounds (outcomes.length / T) (outcomes.length % T)
      T 0 0 p hp
    unfold ThreadPartitionStream at hsum
    omega
  refine ⟨hflat, fun p hp => lineCountWorkerSubtotal_eq outcomes p (hbound p hp), ?_⟩
  unfold GlobalLineTotal SerialSlocSum
  have hmapeq : (ThreadPartitionStream outcomes.length T).map
      (LineCountWorkerSubtotal outcomes) =
      (ThreadPartitionStream outcomes.length T).map
        (fun p => (((outcomes.drop p.offset).take p.size).map slocValue).sum) := by
    apply List.map_congr_left
    intro p hp
    exact lineCountWorkerSubtotal_eq outcomes p (hbound p hp)
  rw [hmapeq]
  have hcomp : (ThreadPartitionStream outcomes.length T).map
      (fun p => (((outcomes.drop p.offset).take p.size).map slocValue).sum) =
      ((ThreadPartitionStream outcomes.length T).map
        (fun p => ((outcomes.drop p.offset).take p.size).map slocValue)).map List.sum := by
    rw [List.map_map]
    rfl
  have hmm : (ThreadPartitionStream outcomes.length T).map
      (fun p => ((outcomes.drop p.offset).take p.size).map slocValue) =
      ((ThreadPartitionStream outcomes.length T).map
        (fun p => (outcomes.drop p.offset).take p.size)).map (List.map slocValue) := by
    rw [List.map_map]
    rfl
  rw [hcomp, ← List.sum_flatten, hmm, ← List.map_flatten, hflat]

/-- Witness for C2 at three file outcomes (3 SLOC, one failed file, 5
SLOC) split over two workers. -/
theorem global_total_eq_serial_sum_witness :
    0 < 2 ∧
    (((ThreadPartitionStream ([some 3, none, some 5] : List (Option Nat)).length 2).map
        (fun p => (([some 3, none, some 5] : List (Option Nat)).drop p.offset).take p.size)).flatten
        = [some 3, none, some 5] ∧
    (∀ p ∈ ThreadPartitionStream ([some 3, none, some 5] : List (Option Nat)).length 2,
      LineCountWorkerSubtotal [some 3, none, some 5] p =
        (((([some 3, none, some 5] : List (Option Nat)).drop p.offset).take p.size).map
          slocValue).sum) ∧
    GlobalLineTotal [some 3, none, some 5] 2 = SerialSlocSum [some 3, none, some 5]) :=
  ⟨by decide, global_total_eq_serial_sum [some 3, none, some 5] 2 (by decide)⟩

/-! ### The root-path list parsing loop -/

theorem parseSearchPathsLoop_shift (l r : List Char) (c : Char) (ps : List Nat) :
    ∀ s, parseSearchPathsLoop (l ++ c :: r) (ps.map (fun x => x + (l.length + 1)))
        (l.length + 1 + s) = parseSearchPathsLoop r ps s := by
  induction ps with
  | nil => intro s; rfl
  | cons p rest ih =>
    intro s
    simp only [List.map_cons, parseSearchPathsLoop]
    have h1 : l.length + 1 + s + 1 = l.length + 1 + (s + 1) := by omega
    rw [h1, skipWhitespaceIdx_shift]
    by_cases hc2 : skipWhitespaceIdx r (s + 1) = p
    · rw [if_pos (by omega), if_pos hc2]
      have h2 : p + (l.length + 1) + 1 = l.length + 1 + (p + 1) := by omega
      rw [h2]
      exact ih (p + 1)
    · rw [if_neg (by omega), if_neg hc2]
      have h2 : p + (l.length + 1) + 1 = l.length + 1 + (p + 1) := by omega
      have h3 : (l ++ c :: r).drop (l.length + 1 + s) = r.drop s := drop_shift l r c s
      have h4 : p + (l.length + 1) - (l.length + 1 + s) = p - s := by omega
      rw [h2, h3, h4, ih (p + 1)]

theorem parseSearchPathsLoop_shift0 (l r : List Char) (c : Char) (ps : List Nat) :
    parseSearchPathsLoop (l ++ c :: r) (ps.map (fun x => x + (l.length + 1)))
      (l.length + 1) = parseSearchPathsLoop r ps 0 := by
  have h := parseSearchPathsLoop_shift l r c ps 0
  simpa using h

theorem newline_skipCount : skipWhitespaceCount ('\n' :: r) = 0 := by
  simp [skipWhitespaceCount, newline_not_ws]

theorem firstLine_skip_iff (l r : List Char) :
    skipWhitespaceIdx (l ++ '\n' :: r) 1 = l.length ↔
      (l ≠ [] ∧ (l.drop 1).all isWhitespaceChar = true) := by
  cases l with
  | nil =>
    simp only [List.nil_append, List.length_nil]
    unfold skipWhitespaceIdx
    constructor
    · intro h
      omega
    · intro h
      exact absurd rfl h.1
  | cons c0 l' =>
    have hdrop : ((c0 :: l') ++ '\n' :: r).drop 1 = l' ++ '\n' :: r := rfl
    unfold skipWhitespaceIdx
    rw [hdrop, skipWhitespaceCount_append]
    simp only [List.length_cons, List.drop_one, List.tail_cons]
    by_cases hall : l'.all isWhitespaceChar = true
    · rw [if_pos hall, newline_skipCount]
      constructor
      · intro _
        exact ⟨by simp, hall⟩
      · intro _
        omega
    · rw [if_neg hall]
      have hlt := skipWhitespaceCount_lt_of_not_all l' hall
      constructor
      · intro h
        omega
      · intro h
        exact absurd h.2 hall

theorem keepsLine_false_of_skip (l : List Char) (hne : l ≠ [])
    (hall : (l.drop 1).all isWhitespaceChar = true) : keepsLine l = false := by
  unfold keepsLine
  rw [hall]
  cases l with
  | nil => exact absurd rfl hne
  | cons c0 l' => rfl

theorem keepsLine_true_of_not_skip (l : List Char)
    (h : ¬ (l ≠ [] ∧ (l.drop 1).all isWhitespaceChar = true)) : keepsLine l = true := by
  unfold keepsLine
  by_cases hne : l = []
  · subst hne
    rfl
  · have hall : ¬ (l.drop 1).all isWhitespaceChar = true := fun hx => h ⟨hne, hx⟩
    have hall' : (l.drop 1).all isWhitespaceChar = false := by
      cases hx : (l.drop 1).all isWhitespaceChar
      · rfl
      · exact absurd hx hall
    rw [hall']
    simp

theorem parseSearchPathsLoop_eq_aux (n : Nat) :
    ∀ content : List Char, content.length ≤ n →
      parseSearchPathsLoop content (findToken content '\n') 0 =
        ((splitLines content).dropLast).filter keepsLine := by
  induction n with
  | zero =>
    intro content hlen
    have hnil : content = [] := by
      cases content with
      | nil => rfl
      | cons c rest => simp at hlen
    subst hnil
    rfl
  | succ n ih =>
    intro content hlen
    by_cases hmem : '\n' ∈ content
    · obtain ⟨l, r, rfl, hnl⟩ := newline_mem_decomp content hmem
      have hrlen : r.length ≤ n := by
        rw [List.length_append, List.length_cons] at hlen
        omega
      have hr := ih r hrlen
      rw [findToken_decomp l r hnl, splitLines_decomp l r hnl,
        List.dropLast_cons_of_ne_nil (splitLines_ne_nil r)]
      simp only [parseSearchPathsLoop, Nat.zero_add]
      by_cases hskip : l ≠ [] ∧ (l.drop 1).all isWhitespaceChar = true
      · rw [if_pos ((firstLine_skip_iff l r).mpr hskip)]
        rw [parseSearchPathsLoop_shift0, hr]
        rw [List.filter_cons, keepsLine_false_of_skip l hskip.1 hskip.2]
        simp
      · rw [if_neg (fun hx => hskip ((firstLine_skip_iff l r).mp hx))]
        have hslice : ((l ++ '\n' :: r).drop 0).take (l.length - 0) = l := by
          simp only [List.drop_zero, Nat.sub_zero]
          exact List.take_left _ _
        rw [hslice, parseSearchPathsLoop_shift0, hr]
        rw [List.filter_cons, keepsLine_true_of_not_skip l hskip]
        simp
    · rw [findToken_nil_of_not_mem _ _ hmem, splitLines_no_newline content hmem]
      rfl

theorem parseSearchPaths_eq (content : List Char)
    (h : (findToken content '\n').length ≤ SEARCH_PATH_NEW_LINE_CAPACITY) :
    parseSearchPaths content =
      some (((splitLines content).dropLast).filter keepsLine) := by
  unfold parseSearchPaths
  rw [if_neg (by omega), parseSearchPathsLoop_eq_aux content.length content (by omega)]

theorem findToken_append_no_newline (c l : List Char) (h : '\n' ∉ l) :
    findToken (c ++ l) '\n' = findToken c '\n' := by
  unfold findToken
  rw [findTokenAux_append, findTokenAux_nil_of_not_mem _ _ h]
  simp

theorem splitLines_dropLast_append (c l : List Char) (h : '\n' ∉ l) :
    (splitLines (c ++ l)).dropLast = (splitLines c).dropLast := by
  induction c with
  | nil =>
    simp only [List.nil_append]
    rw [splitLines_no_newline l h]
    rfl
  | cons ch c' ih =>
    by_cases hch : ch = '\n'
    · subst hch
      have e1 : splitLines ('\n' :: (c' ++ l)) = [] :: splitLines (c' ++ l) := by
        simp [splitLines]
      have e2 : splitLines ('\n' :: c') = [] :: splitLines c' := by
        simp [splitLines]
      simp only [List.cons_append]
      rw [e1, e2, List.dropLast_cons_of_ne_nil (splitLines_ne_nil _),
        List.dropLast_cons_of_ne_nil (splitLines_ne_nil _), ih]
    · obtain ⟨hX, tX, hXeq⟩ : ∃ a as, splitLines (c' ++ l) = a :: as := by
        cases hsp : splitLines (c' ++ l) with
        | nil => exact absurd hsp (splitLines_ne_nil _)
        | cons a as => exact ⟨a, as, rfl⟩
      obtain ⟨hc, tc, hceq⟩ : ∃ a as, splitLines c' = a :: as := by
        cases hsp : splitLines c' with
        | nil => exact absurd hsp (splitLines_ne_nil _)
        | cons a as => exact ⟨a, as, rfl⟩
      have e1 : splitLines (ch :: (c' ++ l)) = (ch :: hX) :: tX := by
        simp only [splitLines, hXeq]
        rw [if_neg hch]
        rfl
      have e2 : splitLines (ch :: c') = (ch :: hc) :: tc := by
        simp only [splitLines, hceq]
        rw [if_neg hch]
        rfl
      simp only [List.cons_append]
      rw [e1, e2]
      have hlen : tX.length = tc.length := by
        have l1 := splitLines_length (c' ++ l)
        have l2 := splitLines_length c'
        rw [hXeq] at l1
        rw [hceq] at l2
        have hcount : (c' ++ l).count '\n' = c'.count '\n' := by
          rw [List.count_append]
          have hz : l.count '\n' = 0 := List.count_eq_zero.mpr h
          omega
        simp only [List.length_cons] at l1 l2
        omega
      by_cases htX : tX = []
      · have htc : tc = [] := by
          rw [htX] at hlen
          cases tc with
          | nil => rfl
          | cons a as => simp at hlen
        rw [htX, htc]
        rfl
      · have htc : tc ≠ [] := by
          intro hh
          rw [hh] at hlen
          have : tX = [] := by
            cases tX with
            | nil => rfl
            | cons a as => simp at hlen
          exact htX this
        rw [List.dropLast_cons_of_ne_nil htX, List.dropLast_cons_of_ne_nil htc]
        have ihh := ih
        rw [hXeq, hceq, List.dropLast_cons_of_ne_nil htX,
          List.dropLast_cons_of_ne_nil htc] at ihh
        injection ihh with ih1 ih2
        rw [ih1, ih2]

/-! ### Claim C6 -/

/-- Counterexample to C6 as stated: a root-path list whose only line is the
single non-blank character `a` yields no search path at all, while a
root-path list consisting of one blank line yields one (empty) search
path.  (The code skips the whitespace scan past a line's first character:
`SkipWhitespace(buffer + starting_position + 1)` at main.cpp line 269.) -/
theorem searchPath_line_handling_counterexample :
    parseSearchPaths ('a' :: '\n' :: []) = some [] ∧
      parseSearchPaths ('\n' :: []) = some [[]] := by
  constructor
  · decide
  · decide

/-- C6 amended: a newline-terminated line of the root-path list is skipped
exactly when it is nonempty and every character after its first one is
whitespace; every other terminated line — including an empty line, which
becomes an empty search path — is added exactly once.  (So a whitespace-only
nonempty line is indeed ignored, but an empty line is added, and a
non-blank line is dropped whenever its characters after the first are all
whitespace — e.g. any one-character line.)  Requires the list to stay
within the 1024-newline stack capacity, which otherwise asserts. -/
theorem searchPath_kept_lines (content : List Char)
    (h : (findToken content '\n').length ≤ SEARCH_PATH_NEW_LINE_CAPACITY) :
    parseSearchPaths content =
      some (((splitLines content).dropLast).filter keepsLine) :=
  parseSearchPaths_eq content h

/-- Witness for the amended C6 on the list `"ab\n \nx\n"`: the line `ab` is
kept, the whitespace-only line is dropped, and the one-character line `x`
is (wrongly but reproducibly) dropped as well. -/
theorem searchPath_kept_lines_witness :
    (findToken ("ab\n \nx\n".toList) '\n').length ≤ SEARCH_PATH_NEW_LINE_CAPACITY ∧
      parseSearchPaths ("ab\n \nx\n".toList) =
        some (((splitLines ("ab\n \nx\n".toList)).dropLast).filter keepsLine) ∧
      parseSearchPaths ("ab\n \nx\n".toList) = some [['a', 'b']] :=
  ⟨by decide, searchPath_kept_lines ("ab\n \nx\n".toList) (by decide), by decide⟩

/-! ### Claim C10 -/

/-- C10: only newline-terminated lines of the root-path list are
considered — appending a final line with no trailing newline never changes
the parsed search paths, because the number of candidate paths is the
number of newline positions found. -/
theorem unterminated_final_line_ignored (c l : List Char) (h : '\n' ∉ l) :
    parseSearchPaths (c ++ l) = parseSearchPaths c := by
  have hft := findToken_append_no_newline c l h
  by_cases hcap : SEARCH_PATH_NEW_LINE_CAPACITY < (findToken c '\n').length
  · unfold parseSearchPaths
    rw [hft, if_pos hcap, if_pos hcap]
  · have h1 := parseSearchPaths_eq (c ++ l) (by rw [hft]; omega)
    have h2 := parseSearchPaths_eq c (by omega)
    rw [h1, h2, splitLines_dropLast_append c l h]

/-- Witness for C10: appending the unterminated line `x` to the list
`"ab\n"` leaves the parsed search paths unchanged. -/
theorem unterminated_final_line_ignored_witness :
    ('\n' ∉ (['x'] : List Char)) ∧
      parseSearchPaths (('a' :: 'b' :: '\n' :: []) ++ ['x']) =
        parseSearchPaths ('a' :: 'b' :: '\n' :: []) :=
  ⟨by decide, unterminated_final_line_ignored ('a' :: 'b' :: '\n' :: []) ['x'] (by decide)⟩

/-! ### Claim C8 -/

/-- C8: the coordinator arms the barrier with `Enter(2T + 1)` before
discovery (main.cpp line 306); in the counting phase, for every arrival
order of the `T` workers (modelled as a permutation `pos` assigning each
worker its 0-based counting-phase arrival position after the `T` discovery
exits), exactly one worker observes `enter_index = T + 1` — the first
arrival — and that worker recomputes the counting partitions over the
discovered-file count and publishes the sentinel, while every other worker
takes the spin-wait path regardless of the target value it reads; and
`SpinWait` lets a waiter proceed exactly when the target field holds the
published sentinel. -/
theorem counting_phase_leader_election (T fileCount target₀ : Nat) (hT : 0 < T)
    (h₀ : target₀ ≠ signalInitializationFinished) (pos : Fin T ≃ Fin T) :
    mainBarrierEnterCount T = 2 * T + 1 ∧
    (∃ w : Fin T, countingEnterIndex T (pos w).val = T + 1 ∧
      ∀ v : Fin T, countingEnterIndex T (pos v).val = T + 1 → v = w) ∧
    (∀ w : Fin T, countingEnterIndex T (pos w).val = T + 1 →
      countingEntry T fileCount (countingEnterIndex T (pos w).val) target₀ =
        CountingEntryAction.lead (ThreadPartitionStream fileCount T)) ∧
    (∀ w : Fin T, countingEnterIndex T (pos w).val ≠ T + 1 →
      ∀ target : Nat, countingEntry T fileCount (countingEnterIndex T (pos w).val) target =
        CountingEntryAction.followerWait) ∧
    (∀ target : Nat, spinWaitProceeds target signalInitializationFinished = true ↔
      target = signalInitializationFinished) := by
  have hiff : ∀ j : Nat, j < T → (countingEnterIndex T j = T + 1 ↔ j = 0) := by
    intro j hj
    unfold countingEnterIndex semaphoreExitValue mainBarrierEnterCount
    omega
  refine ⟨by unfold mainBarrierEnterCount; omega, ?_, ?_, ?_, ?_⟩
  · refine ⟨pos.symm ⟨0, hT⟩, ?_, ?_⟩
    · have h1 : (pos (pos.symm ⟨0, hT⟩)).val = 0 := by
        rw [Equiv.apply_symm_apply]
      exact (hiff _ (pos (pos.symm ⟨0, hT⟩)).isLt).mpr h1
    · intro v hv
      have h2 : (pos v).val = 0 := (hiff _ (pos v).isLt).mp hv
      have h3 : pos v = ⟨0, hT⟩ := Fin.ext h2
      calc v = pos.symm (pos v) := (Equiv.symm_apply_apply pos v).symm
        _ = pos.symm ⟨0, hT⟩ := by rw [h3]
  · intro w hw
    unfold countingEntry
    rw [if_pos ⟨hw, h₀⟩]
  · intro w hw target
    unfold countingEntry
    rw [if_neg (fun hx => hw hx.1)]
  · intro target
    unfold spinWaitProceeds
    constructor
    · intro h
      exact beq_iff_eq.mp h
    · intro h
      exact beq_iff_eq.mpr h

/-- Witness for C8 at `T = 2`, 5 discovered files, a cleared target of 0,
identity arrival order. -/
theorem counting_phase_leader_election_witness :
    0 < 2 ∧ (0 : Nat) ≠ signalInitializationFinished ∧
    (mainBarrierEnterCount 2 = 2 * 2 + 1 ∧
    (∃ w : Fin 2, countingEnterIndex 2 ((Equiv.refl (Fin 2)) w).val = 2 + 1 ∧
      ∀ v : Fin 2, countingEnterIndex 2 ((Equiv.refl (Fin 2)) v).val = 2 + 1 → v = w) ∧
    (∀ w : Fin 2, countingEnterIndex 2 ((Equiv.refl (Fin 2)) w).val = 2 + 1 →
      countingEntry 2 5 (countingEnterIndex 2 ((Equiv.refl (Fin 2)) w).val) 0 =
        CountingEntryAction.lead (ThreadPartitionStream 5 2)) ∧
    (∀ w : Fin 2, countingEnterIndex 2 ((Equiv.refl (Fin 2)) w).val ≠ 2 + 1 →
      ∀ target : Nat,
        countingEntry 2 5 (countingEnterIndex 2 ((Equiv.refl (Fin 2)) w).val) target =
          CountingEntryAction.followerWait) ∧
    (∀ target : Nat, spinWaitProceeds target signalInitializationFinished = true ↔
      target = signalInitializationFinished)) :=
  ⟨by decide, by decide,
    counting_phase_leader_election 2 5 0 (by decide) (by decide) (Equiv.refl (Fin 2))⟩

/-! ### Claim C7 -/

/-- C7: a run with a readable root-path list and one discovered file whose
content opens a multi-line comment that is never closed does not complete
with exit status zero — the assertion inside comment stripping kills the
process.  (Per-file open/read failures are indeed non-fatal, but "parse"
failures are not: the branch meant to record them is unreachable.) -/
theorem main_aborts_on_unterminated_comment :
    mainProcessResult true [processFileContent ("/* x".toList)] =
        ProcessResult.abortedBySignal ∧
      mainProcessResult true [processFileContent ("/* x".toList)] ≠
        ProcessResult.exitCode 0 ∧
      (∀ outcomes, mainProcessResult false outcomes = ProcessResult.exitCode 1) := by
  refine ⟨by decide, by decide, ?_⟩
  intro outcomes
  rfl
